import Mathlib

/-!
Shallow embedding of `src/subgraphs/feature_fit.py` (the repository's single
source file) and proofs about its behaviour.

Modelling conventions:
* machine floats become `ℚ` (exact idealization of the numeric values);
* Python dicts become association lists updated in place (`updateAssoc`),
  matching insertion-order and overwrite semantics;
* Python's stable `sorted` becomes the stable insertion sort `pySorted`;
* `str.strip` becomes `pyStrip`;
* fallible code returns `Except String`;
* external library calls that the spec declares out of scope (the raw
  embedding text parser, sklearn's fit/predict, scipy's cosine distance,
  numpy's random sampling) are abstracted as explicit function arguments or
  pre-tokenized inputs; everything structural around them is translated
  from the source.
-/

/-- Decidable equality for `Except`, used to evaluate concrete runs. -/
instance {ε α : Type} [DecidableEq ε] [DecidableEq α] : DecidableEq (Except ε α) := fun a b =>
  match a, b with
  | .error e, .error f =>
      if h : e = f then .isTrue (by rw [h]) else .isFalse (by simp [h])
  | .error _, .ok _ => .isFalse (by simp)
  | .ok _, .error _ => .isFalse (by simp)
  | .ok x, .ok y =>
      if h : x = y then .isTrue (by rw [h]) else .isFalse (by simp [h])

/-- Stable insertion step used to model Python's `sorted`: `x` is placed
before the first element `y` with `le x y`, so elements that compare equal
keep their original relative order. -/
def insertSorted (le : α → α → Bool) (x : α) : List α → List α
  | [] => [x]
  | y :: ys => if le x y then x :: y :: ys else y :: insertSorted le x ys

/-- Model of Python's stable `sorted(l)` with boolean comparison `le`. -/
def pySorted (le : α → α → Bool) (l : List α) : List α :=
  l.foldr (insertSorted le) []

/-- Code-point lexicographic comparison on character lists. -/
def charsLe : List Char → List Char → Bool
  | [], _ => true
  | _ :: _, [] => false
  | a :: as, b :: bs => if a < b then true else if b < a then false else charsLe as bs

/-- Python's `<=` on strings: code-point lexicographic order. -/
def strLe (a b : String) : Bool := charsLe a.data b.data

/-- Python whitespace recognized by `str.strip`. -/
def isSpaceChar (c : Char) : Bool :=
  c == ' ' || c == '\t' || c == '\n' || c == '\r' || c == '\x0b' || c == '\x0c'

/-- Model of Python's `str.strip()`: drop leading and trailing whitespace. -/
def pyStrip (s : String) : String :=
  ⟨((s.data.dropWhile isSpaceChar).reverse.dropWhile isSpaceChar).reverse⟩

/-- Model of `np.mean` on a list of rationals. -/
def mean (l : List ℚ) : ℚ := l.sum / (l.length : ℚ)

/-- Python dict assignment `m[k] = v`: overwrite the entry in place if the
key is present, otherwise append it (insertion order preserved). -/
def updateAssoc (m : List (String × α)) (k : String) (v : α) : List (String × α) :=
  match m with
  | [] => [(k, v)]
  | (k', v') :: rest => if k' = k then (k, v) :: rest else (k', v') :: updateAssoc rest k v

/-- State of the two cache files used by `load_embeddings`: the binary
embedding matrix `EMBEDDINGS` and the line-oriented vocabulary file `VOCAB`
(`none` = file does not exist). A text file is modelled as its list of
lines; the raw-embedding text parser is out of scope per the spec, so the
raw source `INPUT` is modelled pre-tokenized as `(word, vector)` pairs. -/
structure CacheState where
  embFile : Option (List (List ℚ))
  vocabFile : Option (List String)
deriving DecidableEq

/-- Lines of the raw embedding source kept by the scan in `load_embeddings`:
those whose first field is in the target concept set. -/
def keptInput (input : List (String × List ℚ)) (concepts : Finset String) :
    List (String × List ℚ) :=
  input.filter (fun p => decide (p.1 ∈ concepts))

/-- The kept `(word, vector)` pairs sorted by word, as in
`sorted(zip(vocab, embeddings), key=lambda x: x[0])`. -/
def builtPairs (input : List (String × List ℚ)) (concepts : Finset String) :
    List (String × List ℚ) :=
  pySorted (fun a b => strLe a.1 b.1) (keptInput input concepts)

/-- The vocabulary produced by the cache-miss path of `load_embeddings`. -/
def builtVocab (input : List (String × List ℚ)) (concepts : Finset String) : List String :=
  (builtPairs input concepts).map (·.1)

/-- The embedding matrix produced by the cache-miss path of `load_embeddings`. -/
def builtEmb (input : List (String × List ℚ)) (concepts : Finset String) : List (List ℚ) :=
  (builtPairs input concepts).map (·.2)

/-- Model of `load_embeddings(concepts)`. Branches on existence of the
embedding cache file only; on the hit path it asserts that the vocabulary
file exists and that the row counts agree; on the miss path it scans the raw
source, keeps vectors for target concepts, sorts by word, persists both
files and returns the result. Returns the result (or the assertion failure)
together with the resulting file state. -/
def load_embeddings (fs : CacheState) (input : List (String × List ℚ))
    (concepts : Finset String) :
    Except String (List String × List (List ℚ)) × CacheState :=
  match fs.embFile with
  | some embeddings =>
    match fs.vocabFile with
    | some lines =>
      let vocab := lines.map pyStrip
      if embeddings.length = vocab.length then (.ok (vocab, embeddings), fs)
      else (.error "embedding rows and vocab lines disagree", fs)
    | none => (.error "vocab file missing", fs)
  | none =>
    let vocab := builtVocab input concepts
    let embeddings := builtEmb input concepts
    (.ok (vocab, embeddings), { embFile := some embeddings, vocabFile := some vocab })

/-- C2 counterexample: the claim says that when either cache file is missing
the function rebuilds from the raw source and returns without raising; but
when the embedding file exists and the vocabulary file is missing, the code
raises (the `assert Path(VOCAB).is_file()` fails). -/
theorem load_embeddings_missing_vocab_counterexample :
    ¬ (∀ (fs : CacheState) (input : List (String × List ℚ)) (concepts : Finset String),
        fs.embFile = none ∨ fs.vocabFile = none →
        (load_embeddings fs input concepts).1 =
          .ok (builtVocab input concepts, builtEmb input concepts)) := by
  intro h
  have h2 := h ⟨some [[1]], none⟩ [] ∅ (Or.inr rfl)
  simp [load_embeddings] at h2

/-- C2 (amended): `load_embeddings` branches on the embedding cache file
alone. If it exists the function loads it, failing exactly when the
vocabulary file is missing or the row count differs from the (stripped)
vocabulary line count; if the embedding file is missing it rebuilds from the
raw source, persists both files, and returns without raising. -/
theorem load_embeddings_amended (fs : CacheState) (input : List (String × List ℚ))
    (concepts : Finset String) :
    (∀ e v, fs.embFile = some e → fs.vocabFile = some v →
      (e.length = v.length →
        load_embeddings fs input concepts = (.ok (v.map pyStrip, e), fs)) ∧
      (e.length ≠ v.length →
        (load_embeddings fs input concepts).1 =
          .error "embedding rows and vocab lines disagree")) ∧
    (∀ e, fs.embFile = some e → fs.vocabFile = none →
      (load_embeddings fs input concepts).1 = .error "vocab file missing") ∧
    (fs.embFile = none →
      load_embeddings fs input concepts =
        (.ok (builtVocab input concepts, builtEmb input concepts),
         ⟨some (builtEmb input concepts), some (builtVocab input concepts)⟩)) := by
  refine ⟨?_, ?_, ?_⟩
  · intro e v he hv
    constructor
    · intro hlen
      simp only [load_embeddings, he, hv]
      rw [if_pos (by simpa using hlen)]
    · intro hlen
      simp only [load_embeddings, he, hv]
      rw [if_neg (by simpa using hlen)]
  · intro e he hv
    simp [load_embeddings, he, hv]
  · intro he
    simp [load_embeddings, he]

/-- C2 witness: concrete runs of both the hit path and the miss path. -/
theorem load_embeddings_amended_witness :
    load_embeddings ⟨some [[1], [2]], some ["a", "b"]⟩ [] ∅ =
      (.ok (["a", "b"], [[1], [2]]), ⟨some [[1], [2]], some ["a", "b"]⟩) ∧
    load_embeddings ⟨none, none⟩ [("b", [1]), ("a", [2])] {"a", "b"} =
      (.ok (["a", "b"], [[2], [1]]),
       ⟨some [[2], [1]], some ["a", "b"]⟩) := by
  constructor
  · have h := (load_embeddings_amended ⟨some [[1], [2]], some ["a", "b"]⟩ [] ∅).1
      [[1], [2]] ["a", "b"] rfl rfl
    have h2 := h.1 rfl
    rw [h2]
    decide
  · have h := (load_embeddings_amended ⟨none, none⟩ [("b", [1]), ("a", [2])] {"a", "b"}).2.2 rfl
    rw [h]
    decide

/-- Inserting an element is a permutation of consing it. -/
theorem insertSorted_perm (le : α → α → Bool) (x : α) (l : List α) :
    (insertSorted le x l).Perm (x :: l) := by
  induction l with
  | nil => simp [insertSorted]
  | cons y ys ih =>
    simp only [insertSorted]
    split
    · exact List.Perm.refl _
    · exact (ih.cons y).trans (List.Perm.swap x y ys)

/-- The modelled Python sort permutes its input. -/
theorem pySorted_perm (le : α → α → Bool) (l : List α) : (pySorted le l).Perm l := by
  induction l with
  | nil => exact List.Perm.refl _
  | cons x xs ih =>
    exact (insertSorted_perm le x (pySorted le xs)).trans (ih.cons x)

/-- Every word of the built vocabulary is a first field of a kept input line. -/
theorem builtVocab_mem (input : List (String × List ℚ)) (concepts : Finset String)
    (w : String) (hw : w ∈ builtVocab input concepts) :
    ∃ p ∈ input, p.1 = w := by
  simp only [builtVocab, List.mem_map] at hw
  obtain ⟨p, hp, hpw⟩ := hw
  have hp2 : p ∈ keptInput input concepts :=
    ((pySorted_perm _ _).mem_iff).1 hp
  exact ⟨p, (List.mem_filter.1 hp2).1, hpw⟩

/-- C6: building the cache from a missing-cache state is independent of the
rest of the file state, and re-running `load_embeddings` after the miss path
persisted its result takes the hit path and returns exactly the same
vocabulary and embedding matrix that the miss path returned. The hypothesis
`htrim` records that raw-source words are whitespace-free (they are fields
of `str.split()`), so stripping the persisted vocabulary lines is the
identity. -/
theorem load_embeddings_cache_idempotent (fs fs' : CacheState)
    (input : List (String × List ℚ)) (concepts : Finset String)
    (h : fs.embFile = none) (h' : fs'.embFile = none)
    (htrim : ∀ p ∈ input, pyStrip p.1 = p.1) :
    (load_embeddings fs input concepts).1 = (load_embeddings fs' input concepts).1 ∧
    (load_embeddings (load_embeddings fs input concepts).2 input concepts).1 =
      (load_embeddings fs input concepts).1 := by
  have hres : load_embeddings fs input concepts =
      (.ok (builtVocab input concepts, builtEmb input concepts),
       ⟨some (builtEmb input concepts), some (builtVocab input concepts)⟩) := by
    simp [load_embeddings, h]
  have hres' : load_embeddings fs' input concepts =
      (.ok (builtVocab input concepts, builtEmb input concepts),
       ⟨some (builtEmb input concepts), some (builtVocab input concepts)⟩) := by
    simp [load_embeddings, h']
  have hmapstrip : (builtVocab input concepts).map pyStrip = builtVocab input concepts := by
    have : ∀ w ∈ builtVocab input concepts, pyStrip w = w := by
      intro w hw
      obtain ⟨p, hp, hpw⟩ := builtVocab_mem input concepts w hw
      rw [← hpw]
      exact htrim p hp
    calc (builtVocab input concepts).map pyStrip
        = (builtVocab input concepts).map id := List.map_congr_left this
      _ = builtVocab input concepts := List.map_id _
  have hlen : (builtEmb input concepts).length =
      ((builtVocab input concepts).map pyStrip).length := by
    simp [builtEmb, builtVocab]
  refine ⟨by rw [hres, hres'], ?_⟩
  rw [hres]
  have hlen2 : (builtEmb input concepts).length = (builtVocab input concepts).length := by
    simp [builtEmb, builtVocab]
  simp only [load_embeddings, hmapstrip]
  rw [if_pos hlen2]

/-- C6 witness: a concrete miss-then-hit run. -/
theorem load_embeddings_cache_idempotent_witness :
    ((⟨none, some ["x"]⟩ : CacheState).embFile = none ∧
     (⟨none, none⟩ : CacheState).embFile = none ∧
     (∀ p ∈ ([("b", [1]), ("a", [2])] : List (String × List ℚ)), pyStrip p.1 = p.1)) ∧
    ((load_embeddings ⟨none, some ["x"]⟩ [("b", [1]), ("a", [2])] {"a", "b"}).1 =
        (load_embeddings ⟨none, none⟩ [("b", [1]), ("a", [2])] {"a", "b"}).1 ∧
     (load_embeddings
        (load_embeddings ⟨none, some ["x"]⟩ [("b", [1]), ("a", [2])] {"a", "b"}).2
        [("b", [1]), ("a", [2])] {"a", "b"}).1 =
       (load_embeddings ⟨none, some ["x"]⟩ [("b", [1]), ("a", [2])] {"a", "b"}).1) :=
  ⟨⟨rfl, rfl, by decide⟩,
   load_embeddings_cache_idempotent ⟨none, some ["x"]⟩ ⟨none, none⟩
     [("b", [1]), ("a", [2])] {"a", "b"} rfl rfl (by decide)⟩

/-- The catalog `Feature` namedtuple: name, concept set, the four word-class
fields `fields[2:6]`, and the distinguishing flag `fields[10]`. -/
structure Feature where
  name : String
  concepts : Finset String
  wb_label : String
  wb_maj : String
  wb_min : String
  br_label : String
  disting : String

/-- Structure-eta decidable equality for `Feature` that reduces in the
kernel (the derived instance blocks on `Eq.rec`). -/
instance : DecidableEq Feature := fun a b =>
  decidable_of_iff
    (a.name = b.name ∧ a.concepts = b.concepts ∧ a.wb_label = b.wb_label ∧
      a.wb_maj = b.wb_maj ∧ a.wb_min = b.wb_min ∧ a.br_label = b.br_label ∧
      a.disting = b.disting)
    (by cases a; cases b; simp)

/-- One iteration of the row loop in `load_features_concepts`. A row is the
tab-split field list of a line. Rows with fewer than two fields fail the
unpacking `concept_name, feature_name = fields[:2]`; rows that create a new
feature additionally need `fields[2:6]` and `fields[10]`. The header row and
the known bad row `dunebuggy` are skipped. -/
def lfc_step (acc : List (String × Feature) × Finset String) (fields : List String) :
    Except String (List (String × Feature) × Finset String) :=
  match fields with
  | concept_name :: feature_name :: rest =>
    if concept_name = "Concept" ∨ concept_name = "dunebuggy" then .ok acc
    else
      match acc.1.lookup feature_name with
      | some f =>
          .ok (updateAssoc acc.1 feature_name
                 { f with concepts := insert concept_name f.concepts },
               insert concept_name acc.2)
      | none =>
          match rest.get? 0, rest.get? 1, rest.get? 2, rest.get? 3, rest.get? 8 with
          | some wb_label, some wb_maj, some wb_min, some br_label, some disting =>
              .ok (acc.1 ++ [(feature_name,
                     ⟨feature_name, {concept_name}, wb_label, wb_maj, wb_min, br_label,
                      disting⟩)],
                   insert concept_name acc.2)
          | _, _, _, _, _ => .error "malformed row"
  | _ => .error "malformed row"

/-- Model of `load_features_concepts()`: fold the row loop over the
tab-split rows of the catalog file, starting from an empty feature dict and
an empty concept set. -/
def load_features_concepts (rows : List (List String)) :
    Except String (List (String × Feature) × Finset String) :=
  rows.foldlM lfc_step ([], ∅)

/-- Union of the concept sets of all features in the dict. -/
def unionConcepts (fs : List (String × Feature)) : Finset String :=
  fs.foldr (fun p acc => p.2.concepts ∪ acc) ∅

theorem unionConcepts_init (fs : List (String × Feature)) (s : Finset String) :
    fs.foldr (fun p acc => p.2.concepts ∪ acc) s = unionConcepts fs ∪ s := by
  induction fs with
  | nil => simp [unionConcepts]
  | cons p ps ih => simp [unionConcepts, ih, Finset.union_assoc]

theorem unionConcepts_append_single (fs : List (String × Feature)) (k : String) (f : Feature) :
    unionConcepts (fs ++ [(k, f)]) = unionConcepts fs ∪ f.concepts := by
  show (fs ++ [(k, f)]).foldr (fun p acc => p.2.concepts ∪ acc) ∅ = _
  rw [List.foldr_append]
  show fs.foldr (fun p acc => p.2.concepts ∪ acc) (f.concepts ∪ ∅) = _
  rw [unionConcepts_init, Finset.union_empty]

theorem unionConcepts_updateAssoc (m : List (String × Feature)) (k c : String)
    (f g : Feature) (hm : m.lookup k = some f) (hg : g.concepts = insert c f.concepts) :
    unionConcepts (updateAssoc m k g) = insert c (unionConcepts m) := by
  induction m with
  | nil => simp at hm
  | cons p ps ih =>
    obtain ⟨k', v'⟩ := p
    by_cases hk : k' = k
    · rw [List.lookup_cons] at hm
      have hbeq : (k == k') = true := by
        rw [beq_iff_eq]
        exact hk.symm
      rw [hbeq] at hm
      have hv : v' = f := Option.some.inj hm
      simp only [updateAssoc]
      rw [if_pos hk]
      show g.concepts ∪ unionConcepts ps = insert c (v'.concepts ∪ unionConcepts ps)
      rw [hv, hg, Finset.insert_union]
    · rw [List.lookup_cons] at hm
      have hbeq : (k == k') = false := by
        rw [beq_eq_false_iff_ne]
        exact fun hkk => hk hkk.symm
      rw [hbeq] at hm
      simp only [updateAssoc, if_neg hk]
      simp only [unionConcepts] at *
      rw [show ((k', v') :: updateAssoc ps k g).foldr (fun p acc => p.2.concepts ∪ acc) ∅ =
            v'.concepts ∪ (updateAssoc ps k g).foldr (fun p acc => p.2.concepts ∪ acc) ∅
          from rfl]
      rw [ih hm]
      simp [Finset.union_insert]

theorem mem_updateAssoc {α : Type} (m : List (String × α)) (k : String) (v : α)
    (p : String × α) (hp : p ∈ updateAssoc m k v) : p = (k, v) ∨ p ∈ m := by
  induction m with
  | nil => simpa [updateAssoc] using hp
  | cons q qs ih =>
    obtain ⟨k', v'⟩ := q
    simp only [updateAssoc] at hp
    by_cases hk : k' = k
    · rw [if_pos hk] at hp
      rcases List.mem_cons.1 hp with h1 | h1
      · exact Or.inl h1
      · exact Or.inr (List.mem_cons_of_mem _ h1)
    · rw [if_neg hk] at hp
      rcases List.mem_cons.1 hp with h1 | h1
      · exact Or.inr (by simp [h1])
      · rcases ih h1 with h2 | h2
        · exact Or.inl h2
        · exact Or.inr (List.mem_cons_of_mem _ h2)

/-- The loader invariant: the running concept set is the union of the
feature concept sets, and every feature's concept set is nonempty. -/
def LoaderInv (acc : List (String × Feature) × Finset String) : Prop :=
  acc.2 = unionConcepts acc.1 ∧ ∀ p ∈ acc.1, p.2.concepts.Nonempty

theorem lfc_step_invariant (acc : List (String × Feature) × Finset String)
    (fields : List String) (acc' : List (String × Feature) × Finset String)
    (h : lfc_step acc fields = .ok acc') (hacc : LoaderInv acc) : LoaderInv acc' := by
  match fields with
  | [] => simp [lfc_step] at h
  | [_] => simp [lfc_step] at h
  | concept_name :: feature_name :: rest =>
    simp only [lfc_step] at h
    by_cases hskip : concept_name = "Concept" ∨ concept_name = "dunebuggy"
    · rw [if_pos hskip] at h
      cases h
      exact hacc
    · rw [if_neg hskip] at h
      cases hlook : acc.1.lookup feature_name with
      | some f =>
        rw [hlook] at h
        cases h
        constructor
        · show insert concept_name acc.2 = _
          rw [hacc.1]
          exact (unionConcepts_updateAssoc acc.1 feature_name concept_name f _ hlook rfl).symm
        · intro p hp
          rcases mem_updateAssoc _ _ _ p hp with h1 | h1
          · rw [h1]
            exact ⟨concept_name, Finset.mem_insert_self _ _⟩
          · exact hacc.2 p h1
      | none =>
        rw [hlook] at h
        cases h0 : rest.get? 0 with
        | none => rw [h0] at h; cases h
        | some wb_label =>
        cases h1 : rest.get? 1 with
        | none => rw [h0, h1] at h; cases h
        | some wb_maj =>
        cases h2 : rest.get? 2 with
        | none => rw [h0, h1, h2] at h; cases h
        | some wb_min =>
        cases h3 : rest.get? 3 with
        | none => rw [h0, h1, h2, h3] at h; cases h
        | some br_label =>
        cases h8 : rest.get? 8 with
        | none => rw [h0, h1, h2, h3, h8] at h; cases h
        | some disting =>
        rw [h0, h1, h2, h3, h8] at h
        cases h
        constructor
        · show insert concept_name acc.2 = _
          rw [hacc.1, unionConcepts_append_single]
          show insert concept_name (unionConcepts acc.1) =
            unionConcepts acc.1 ∪ {concept_name}
          rw [Finset.union_comm]
          exact Finset.insert_eq _ _
        · intro p hp
          rcases List.mem_append.1 hp with hp1 | hp1
          · exact hacc.2 p hp1
          · simp only [List.mem_singleton] at hp1
            rw [hp1]
            exact ⟨concept_name, Finset.mem_singleton_self _⟩

theorem lfc_foldl_invariant (rows : List (List String))
    (acc : List (String × Feature) × Finset String) (hacc : LoaderInv acc)
    (res : List (String × Feature) × Finset String)
    (h : rows.foldlM lfc_step acc = .ok res) : LoaderInv res := by
  induction rows generalizing acc with
  | nil =>
    simp only [List.foldlM_nil] at h
    cases h
    exact hacc
  | cons r rs ih =>
    simp only [List.foldlM_cons] at h
    cases hstep : lfc_step acc r with
    | error e => rw [hstep] at h; cases h
    | ok acc' =>
      rw [hstep] at h
      exact ih acc' (lfc_step_invariant acc r acc' hstep hacc) h

/-- C7: on every successfully parsed catalog, the returned concept set is
the union of the concept sets of the returned features, and every returned
feature has a nonempty concept set. -/
theorem load_features_concepts_union_nonempty (rows : List (List String))
    (fs : List (String × Feature)) (cs : Finset String)
    (h : load_features_concepts rows = .ok (fs, cs)) :
    cs = unionConcepts fs ∧ ∀ p ∈ fs, p.2.concepts.Nonempty :=
  lfc_foldl_invariant rows ([], ∅) ⟨by simp [unionConcepts], by simp⟩ (fs, cs) h

/-- Concrete catalog rows for the C7 witness: a header row, a
feature-creating row, and a row extending an existing feature. -/
def lfcRowsEx : List (List String) :=
  [["Concept", "Feature"],
   ["cat", "has_fur", "w1", "w2", "w3", "visual", "x", "y", "z", "zz", "D"],
   ["dog", "has_fur"]]

/-- Feature dict produced by `load_features_concepts lfcRowsEx`. -/
def lfcFeatsEx : List (String × Feature) :=
  [("has_fur", ⟨"has_fur", {"cat", "dog"}, "w1", "w2", "w3", "visual", "D"⟩)]

/-- C7 witness: a concrete run of the loader. -/
theorem load_features_concepts_union_nonempty_witness :
    load_features_concepts lfcRowsEx = .ok (lfcFeatsEx, ({"cat", "dog"} : Finset String)) ∧
    (({"cat", "dog"} : Finset String) = unionConcepts lfcFeatsEx ∧
     ∀ p ∈ lfcFeatsEx, p.2.concepts.Nonempty) :=
  ⟨by decide,
   load_features_concepts_union_nonempty lfcRowsEx lfcFeatsEx {"cat", "dog"} (by decide)⟩

/-- Model of `word2idx = {w: i for i, w in enumerate(vocab)}` as a partial
map; the dict comprehension keeps the last index when a word repeats. -/
def word2idx (vocab : List String) (w : String) : Option Nat :=
  ((vocab.enum.filter (fun p => p.2 == w)).getLast?).map (·.1)

/-- The feature's concepts that are present in the vocabulary, i.e. the
names surviving `[word2idx[c] for c in feature.concepts if c in word2idx]`
(a list over the distinct members of the `concepts` set). -/
def inVocabConcepts (vocab : List String) (f : Feature) : Finset String :=
  f.concepts.filter (fun c => (word2idx vocab c).isSome)

/-- Column of the indicator matrix `Y` built by `analyze_features` for one
feature: all zeros when the feature has fewer than 5 in-vocabulary concepts
(the `continue` skips it), else 1 exactly at the vocabulary indices of its
in-vocabulary concepts. Rows are vocabulary positions; `len(word2idx)`
equals `len(vocab)` when the vocabulary has no duplicates (with duplicates
the original code crashes on a shape mismatch before producing scores). -/
def Ycolumn (vocab : List String) (f : Feature) : List ℚ :=
  if (inVocabConcepts vocab f).card < 5 then List.replicate vocab.length 0
  else (List.range vocab.length).map
    (fun i => if ∃ c ∈ inVocabConcepts vocab f, word2idx vocab c = some i then 1 else 0)

/-- One output tuple of `analyze_features`: the feature name, its column
sum `counts[i]`, and `None` for an all-zero column else the externally
computed F1 score (sklearn, abstracted as `f1` indexed by column). -/
def afEntry (f1 : Nat → ℚ) (vocab : List String) (p : Nat × (String × Feature)) :
    String × ℚ × Option ℚ :=
  let count := (Ycolumn vocab p.2.2).sum
  (p.2.1, count, if count = 0 then none else some (f1 p.1))

/-- Model of `analyze_features`: iterate the features in sorted-name order
(`feature_names = sorted(features.keys())`; dict keys are distinct, so
sorting the association list by key visits `features[f_name]` in the same
order) and emit `zip(feature_names, counts, ret_metrics)`. -/
def analyze_features (f1 : Nat → ℚ) (features : List (String × Feature))
    (vocab : List String) : List (String × ℚ × Option ℚ) :=
  ((pySorted (fun a b => strLe a.1 b.1) features).enum).map (afEntry f1 vocab)

theorem word2idx_lt (vocab : List String) (w : String) (i : Nat)
    (h : word2idx vocab w = some i) : i < vocab.length := by
  unfold word2idx at h
  cases hlast : (vocab.enum.filter (fun p => p.2 == w)).getLast? with
  | none => rw [hlast] at h; cases h
  | some q =>
    rw [hlast] at h
    have hq : q ∈ vocab.enum.filter (fun p => p.2 == w) := by
      obtain ⟨hne, heq⟩ := List.mem_getLast?_eq_getLast (Option.mem_def.2 hlast)
      rw [heq]
      exact List.getLast_mem hne
    have hq2 : q ∈ vocab.enum := (List.mem_filter.1 hq).1
    have := List.mem_enum hq2
    have hi : q.1 = i := Option.some.inj h
    obtain ⟨qa, qb⟩ := q
    simp only at hi
    rw [← hi]
    exact (List.mem_enum hq2).1

theorem Ycolumn_sum_zero_iff (vocab : List String) (f : Feature) :
    (Ycolumn vocab f).sum = 0 ↔ (inVocabConcepts vocab f).card < 5 := by
  constructor
  · intro hsum
    by_contra hcard
    push_neg at hcard
    have hcol : Ycolumn vocab f = (List.range vocab.length).map
        (fun i => if ∃ c ∈ inVocabConcepts vocab f, word2idx vocab c = some i then 1 else 0) := by
      simp [Ycolumn, Nat.not_lt.2 hcard]
    have hne : (inVocabConcepts vocab f).Nonempty :=
      Finset.card_pos.1 (by omega)
    obtain ⟨c, hc⟩ := hne
    have hsomec : (word2idx vocab c).isSome := by
      have := Finset.mem_filter.1 hc
      simpa using this.2
    obtain ⟨i, hci⟩ := Option.isSome_iff_exists.1 hsomec
    have hilt : i < vocab.length := word2idx_lt vocab c i hci
    have hone : (1 : ℚ) ∈ Ycolumn vocab f := by
      rw [hcol]
      refine List.mem_map.2 ⟨i, List.mem_range.2 hilt, ?_⟩
      rw [if_pos ⟨c, hc, hci⟩]
    have hnonneg : ∀ x ∈ Ycolumn vocab f, (0 : ℚ) ≤ x := by
      intro x hx
      rw [hcol] at hx
      obtain ⟨j, _, hj⟩ := List.mem_map.1 hx
      rw [← hj]
      split <;> norm_num
    have hle : (1 : ℚ) ≤ (Ycolumn vocab f).sum := List.single_le_sum hnonneg 1 hone
    rw [hsum] at hle
    norm_num at hle
  · intro hcard
    simp [Ycolumn, hcard]

/-- C5: every feature of the catalog yields a result tuple of
`analyze_features`, whose score is the absent marker `None` exactly when
the feature has fewer than 5 positive concepts present in the vocabulary,
and a numeric score when it has at least 5. The `Nodup` hypothesis records
the shape condition under which the original run does not crash. -/
theorem analyze_features_none_iff_few_positives (f1 : Nat → ℚ)
    (features : List (String × Feature)) (vocab : List String) (hv : vocab.Nodup)
    (p : String × Feature) (hp : p ∈ features) :
    ∃ cnt sc, (p.1, cnt, sc) ∈ analyze_features f1 features vocab ∧
      (sc = none ↔ (inVocabConcepts vocab p.2).card < 5) ∧
      (5 ≤ (inVocabConcepts vocab p.2).card → ∃ q, sc = some q) := by
  clear hv
  have hmem : p ∈ pySorted (fun a b => strLe a.1 b.1) features :=
    ((pySorted_perm _ features).mem_iff).2 hp
  have hidx : ∃ i, (i, p) ∈ (pySorted (fun a b => strLe a.1 b.1) features).enum := by
    obtain ⟨n, hn⟩ := List.mem_iff_get.1 hmem
    exact ⟨n.1, by rw [← hn]; exact List.mem_enum_iff_get?.2 (by simp [List.get?_eq_get n.2])⟩
  obtain ⟨i, hi⟩ := hidx
  refine ⟨(Ycolumn vocab p.2).sum,
    (if (Ycolumn vocab p.2).sum = 0 then none else some (f1 i)), ?_, ?_, ?_⟩
  · exact List.mem_map.2 ⟨(i, p), hi, rfl⟩
  · constructor
    · intro hnone
      by_contra hcard
      have h0 : ¬ (Ycolumn vocab p.2).sum = 0 := fun h0 =>
        hcard ((Ycolumn_sum_zero_iff vocab p.2).1 h0)
      rw [if_neg h0] at hnone
      cases hnone
    · intro hcard
      rw [if_pos ((Ycolumn_sum_zero_iff vocab p.2).2 hcard)]
  · intro hcard
    refine ⟨f1 i, ?_⟩
    rw [if_neg]
    intro h0
    have := (Ycolumn_sum_zero_iff vocab p.2).1 h0
    omega

/-- Vocabulary for the C5 witness. -/
def afVocabEx : List String := ["a", "b", "c", "d", "e"]

/-- Feature for the C5 witness: 5 in-vocabulary concepts. -/
def afFeatEx : Feature := ⟨"f", {"a", "b", "c", "d", "e"}, "x", "x", "x", "cat", "x"⟩

/-- C5 witness: a concrete feature with exactly 5 in-vocabulary concepts. -/
theorem analyze_features_none_iff_few_positives_witness :
    (afVocabEx.Nodup ∧ ("f", afFeatEx) ∈ [("f", afFeatEx)]) ∧
    (∃ cnt sc,
      (("f", afFeatEx).1, cnt, sc) ∈ analyze_features (fun _ => 1) [("f", afFeatEx)] afVocabEx ∧
      (sc = none ↔ (inVocabConcepts afVocabEx ("f", afFeatEx).2).card < 5) ∧
      (5 ≤ (inVocabConcepts afVocabEx ("f", afFeatEx).2).card → ∃ q, sc = some q)) :=
  ⟨⟨by decide, by decide⟩,
   analyze_features_none_iff_few_positives (fun _ => 1) [("f", afFeatEx)] afVocabEx
     (by decide) ("f", afFeatEx) (by decide)⟩

/-- The fixed logarithmic grid of regularization strengths,
`[10**exp for exp in range(-5, 1)] + [5 * (10**exp) for exp in range(-5, 1)]`
(the list index `e` stands for the exponent `e - 5`). -/
def C_choices : List ℚ :=
  ((List.range 6).map fun e => (10 : ℚ) ^ e / 100000) ++
    ((List.range 6).map fun e => 5 * ((10 : ℚ) ^ e) / 100000)

/-- Descending lexicographic comparison on `(mean, -C)` pairs, modelling
`sorted(..., reverse=True)` on Python tuples. -/
def pairGe (a b : ℚ × ℚ) : Bool := decide (b.1 < a.1 ∨ (a.1 = b.1 ∧ b.2 ≤ a.2))

/-- Model of the `best_C` selection in `analyze_features`:
`C_results = sorted([(np.mean(scores), -C) for C, scores in ...], reverse=True)`
followed by `best_C = -C_results[0][1]`. -/
def best_C (results : List (ℚ × List ℚ)) : ℚ :=
  let C_results := pySorted pairGe (results.map (fun p => (mean p.2, -p.1)))
  Neg.neg (C_results.headD (0, 0)).2

theorem mem_insertSorted (le : α → α → Bool) (x a : α) (l : List α)
    (h : a ∈ insertSorted le x l) : a = x ∨ a ∈ l :=
  List.mem_cons.1 ((insertSorted_perm le x l).mem_iff.1 h)

theorem pairwise_insertSorted (le : α → α → Bool)
    (htrans : ∀ a b c, le a b = true → le b c = true → le a c = true)
    (htotal : ∀ a b, le a b = true ∨ le b a = true) (x : α) (l : List α)
    (hl : l.Pairwise (fun a b => le a b = true)) :
    (insertSorted le x l).Pairwise (fun a b => le a b = true) := by
  induction l with
  | nil => simp [insertSorted]
  | cons y ys ih =>
    rw [List.pairwise_cons] at hl
    simp only [insertSorted]
    split
    · rename_i hxy
      rw [List.pairwise_cons]
      refine ⟨?_, List.pairwise_cons.2 hl⟩
      intro b hb
      rcases List.mem_cons.1 hb with h1 | h1
      · rw [h1]; exact hxy
      · exact htrans x y b hxy (hl.1 b h1)
    · rename_i hxy
      have hyx : le y x = true := by
        rcases htotal x y with h1 | h1
        · exact absurd h1 hxy
        · exact h1
      rw [List.pairwise_cons]
      refine ⟨?_, ih hl.2⟩
      intro b hb
      rcases mem_insertSorted le x b ys hb with h1 | h1
      · rw [h1]; exact hyx
      · exact hl.1 b h1

theorem pairwise_pySorted (le : α → α → Bool)
    (htrans : ∀ a b c, le a b = true → le b c = true → le a c = true)
    (htotal : ∀ a b, le a b = true ∨ le b a = true) (l : List α) :
    (pySorted le l).Pairwise (fun a b => le a b = true) := by
  induction l with
  | nil => simp [pySorted]
  | cons x xs ih => exact pairwise_insertSorted le htrans htotal x (pySorted le xs) ih

theorem pairGe_trans (a b c : ℚ × ℚ) (h1 : pairGe a b = true) (h2 : pairGe b c = true) :
    pairGe a c = true := by
  simp only [pairGe, decide_eq_true_eq] at *
  rcases h1 with h1 | ⟨h1a, h1b⟩ <;> rcases h2 with h2 | ⟨h2a, h2b⟩
  · exact Or.inl (lt_trans h2 h1)
  · exact Or.inl (by rw [← h2a]; exact h1)
  · exact Or.inl (by rw [h1a]; exact h2)
  · exact Or.inr ⟨by rw [h1a, h2a], le_trans h2b h1b⟩

theorem pairGe_total (a b : ℚ × ℚ) : pairGe a b = true ∨ pairGe b a = true := by
  simp only [pairGe, decide_eq_true_eq]
  rcases lt_trichotomy a.1 b.1 with h | h | h
  · exact Or.inr (Or.inl h)
  · rcases le_total a.2 b.2 with h2 | h2
    · exact Or.inr (Or.inr ⟨h.symm, h2⟩)
    · exact Or.inl (Or.inr ⟨h, h2⟩)
  · exact Or.inl (Or.inl h)

/-- C4: `best_C` picks, among the collected `(C, scores)` entries (whose
keys come from the fixed logarithmic grid), a candidate with maximal mean
margin, and on equal means the smaller C: every other entry has a strictly
smaller mean, or an equal mean and a C no smaller than the chosen one. -/
theorem best_C_maximizes_mean_margin (results : List (ℚ × List ℚ))
    (h : results ≠ []) (hgrid : ∀ q ∈ results, q.1 ∈ C_choices) :
    best_C results ∈ C_choices ∧
    ∃ sb, (best_C results, sb) ∈ results ∧
      ∀ q ∈ results, mean q.2 < mean sb ∨
        (mean q.2 = mean sb ∧ best_C results ≤ q.1) := by
  have hsorted := pairwise_pySorted pairGe pairGe_trans pairGe_total
    (results.map (fun p => (mean p.2, -p.1)))
  have hperm := pySorted_perm pairGe (results.map (fun p => (mean p.2, -p.1)))
  cases hs : pySorted pairGe (results.map (fun p => (mean p.2, -p.1))) with
  | nil =>
    exfalso
    have : results.map (fun p => (mean p.2, -p.1)) = [] := by
      have := hperm.length_eq
      rw [hs] at this
      exact List.length_eq_zero.1 this.symm
    exact h (List.map_eq_nil.1 this)
  | cons hd tl =>
    rw [hs] at hsorted
    have hbest : best_C results = -hd.2 := by
      simp [best_C, hs]
    have hhdmem : hd ∈ results.map (fun p => (mean p.2, -p.1)) := by
      rw [← hperm.mem_iff, hs]
      exact List.mem_cons_self _ _
    obtain ⟨p, hp, hphd⟩ := List.mem_map.1 hhdmem
    have hp1 : p.1 = -hd.2 := by
      rw [← hphd]
      simp
    have hp2 : mean p.2 = hd.1 := by rw [← hphd]
    refine ⟨?_, p.2, ?_, ?_⟩
    · rw [hbest, ← hp1]
      exact hgrid p hp
    · rw [hbest, ← hp1]
      exact (by rw [show (p.1, p.2) = p from rfl]; exact hp)
    · intro q hq
      have hqmem : (mean q.2, -q.1) ∈ pySorted pairGe (results.map (fun p => (mean p.2, -p.1))) := by
        rw [hperm.mem_iff]
        exact List.mem_map.2 ⟨q, hq, rfl⟩
      rw [hs] at hqmem
      rcases List.mem_cons.1 hqmem with h1 | h1
      · right
        constructor
        · rw [hp2, ← h1]
        · rw [hbest]
          have : -q.1 = hd.2 := by rw [← h1]
          rw [← this, neg_neg]
      · have hge : pairGe hd (mean q.2, -q.1) = true :=
          (List.pairwise_cons.1 hsorted).1 _ h1
        simp only [pairGe, decide_eq_true_eq] at hge
        rcases hge with hge | ⟨hgea, hgeb⟩
        · left
          rw [hp2]
          exact hge
        · right
          refine ⟨by rw [hp2, hgea], ?_⟩
          rw [hbest]
          have := neg_le_neg hgeb
          simpa using this

/-- C4 witness: two grid candidates with equal mean margin; the smaller C
is chosen. -/
theorem best_C_maximizes_mean_margin_witness :
    (([((1 : ℚ), [(1 : ℚ)]), (1/2, [1])] : List (ℚ × List ℚ)) ≠ [] ∧
     ∀ q ∈ ([((1 : ℚ), [(1 : ℚ)]), (1/2, [1])] : List (ℚ × List ℚ)), q.1 ∈ C_choices) ∧
    (best_C [((1 : ℚ), [(1 : ℚ)]), (1/2, [1])] ∈ C_choices ∧
     ∃ sb, (best_C [((1 : ℚ), [(1 : ℚ)]), (1/2, [1])], sb) ∈
         ([((1 : ℚ), [(1 : ℚ)]), (1/2, [1])] : List (ℚ × List ℚ)) ∧
       ∀ q ∈ ([((1 : ℚ), [(1 : ℚ)]), (1/2, [1])] : List (ℚ × List ℚ)),
         mean q.2 < mean sb ∨
           (mean q.2 = mean sb ∧ best_C [((1 : ℚ), [(1 : ℚ)]), (1/2, [1])] ≤ q.1)) := by
  have hgrid : ∀ q ∈ ([((1 : ℚ), [(1 : ℚ)]), (1/2, [1])] : List (ℚ × List ℚ)),
      q.1 ∈ C_choices := by
    intro q hq
    rcases List.mem_cons.1 hq with h1 | h1
    · rw [h1]
      simp only [C_choices, List.mem_append, List.mem_map, List.mem_range]
      exact Or.inl ⟨5, by norm_num⟩
    · simp only [List.mem_singleton] at h1
      rw [h1]
      simp only [C_choices, List.mem_append, List.mem_map, List.mem_range]
      exact Or.inr ⟨4, by norm_num⟩
  exact ⟨⟨by simp, hgrid⟩,
    best_C_maximizes_mean_margin [((1 : ℚ), [(1 : ℚ)]), (1/2, [1])] (by simp) hgrid⟩

/-- Python `name.split("_")[0]`: the first token of a feature name. -/
def firstWord (name : String) : String := ⟨name.data.takeWhile (fun c => !(c == '_'))⟩

/-- The rows of `feature_data` kept by `main`: entries whose metric is not
`None`, sorted ascending by metric
(`sorted(filter(lambda f: f[2] is not None, feature_data), key=lambda f: f[2])`). -/
def definedFeatureData (data : List (String × ℚ × Option ℚ)) : List (String × ℚ × ℚ) :=
  pySorted (fun a b => decide (a.2.2 ≤ b.2.2))
    (data.filterMap (fun d => d.2.2.map (fun s => (d.1, d.2.1, s))))

/-- `defaultdict(list)` append `groups[k].append(v)`: add `v` at the end of
the group keyed `k`, creating the group (at the end) on first use. -/
def addToGroup (gs : List (String × List α)) (k : String) (v : α) :
    List (String × List α) :=
  match gs with
  | [] => [(k, [v])]
  | (k', vs) :: rest =>
    if k' = k then (k', vs ++ [v]) :: rest else (k', vs) :: addToGroup rest k v

/-- The groups `main` builds for one grouping key: each row contributes
`(score, n_entries)` to the group named `grouping_fn(name)`. -/
def buildGroups (g : String → String) (data : List (String × ℚ × ℚ)) :
    List (String × List (ℚ × ℚ)) :=
  data.foldl (fun gs d => addToGroup gs (g d.1) (d.2.2, d.2.1)) []

theorem sum_lengths_addToGroup {α : Type} (gs : List (String × List α)) (k : String) (v : α) :
    ((addToGroup gs k v).map (fun grp => grp.2.length)).sum =
      (gs.map (fun grp => grp.2.length)).sum + 1 := by
  induction gs with
  | nil => simp [addToGroup]
  | cons q qs ih =>
    obtain ⟨k', vs⟩ := q
    simp only [addToGroup]
    split
    · simp
      omega
    · simp only [List.map_cons, List.sum_cons, ih]
      omega

theorem buildGroups_sum_aux (g : String → String) (data : List (String × ℚ × ℚ))
    (gs : List (String × List (ℚ × ℚ))) :
    ((data.foldl (fun gs d => addToGroup gs (g d.1) (d.2.2, d.2.1)) gs).map
        (fun grp => grp.2.length)).sum =
      (gs.map (fun grp => grp.2.length)).sum + data.length := by
  induction data generalizing gs with
  | nil => simp
  | cons d ds ih =>
    simp only [List.foldl_cons, List.length_cons, ih, sum_lengths_addToGroup]
    omega

theorem definedFeatureData_length (data : List (String × ℚ × Option ℚ)) :
    (definedFeatureData data).length = (data.filter (fun d => d.2.2.isSome)).length := by
  rw [definedFeatureData, (pySorted_perm _ _).length_eq]
  induction data with
  | nil => rfl
  | cons d ds ih =>
    cases hd : d.2.2 <;>
      simp [List.filterMap_cons, List.filter_cons, hd, ih]

/-- C8: for either grouping key (the category label of a feature, or the
first token of its name), the group sizes over the defined-score rows add
up to the number of features with a defined score. -/
theorem group_counts_sum (brLabelOf : String → String)
    (data : List (String × ℚ × Option ℚ)) :
    ((buildGroups brLabelOf (definedFeatureData data)).map
        (fun grp => grp.2.length)).sum =
      (data.filter (fun d => d.2.2.isSome)).length ∧
    ((buildGroups firstWord (definedFeatureData data)).map
        (fun grp => grp.2.length)).sum =
      (data.filter (fun d => d.2.2.isSome)).length := by
  constructor <;>
    simp [buildGroups, buildGroups_sum_aux, definedFeatureData_length]

/-- Median via `np.percentile(scores, 50)` (linear interpolation): middle
element for odd length, average of the two middle elements for even. -/
def percentile50 (scores : List ℚ) : ℚ :=
  let s := pySorted (fun a b => decide (a ≤ b)) scores
  if scores.length % 2 = 1 then s.getD (scores.length / 2) 0
  else (s.getD (scores.length / 2 - 1) 0 + s.getD (scores.length / 2) 0) / 2

/-- The per-group report rows of `main` for one grouping key, in the order
they are written: `(group name, median of the group's scores)`, sorted by
median (`summary = sorted(summary.items(), key=lambda x: x[1][2][1])`).
Only the median component is modelled because only `pcts[1]` flows into
`fcat_med`. -/
def summaryFor (g : String → String) (data : List (String × ℚ × ℚ)) :
    List (String × ℚ) :=
  pySorted (fun a b => decide (a.2 ≤ b.2))
    ((buildGroups g data).map (fun grp => (grp.1, percentile50 (grp.2.map (·.1)))))

/-- The `fcat_med` dict at the end of `main`'s report loop. The loop
traverses `sorted(groups.items())`, i.e. the `br_label` grouping first and
the `first_word` grouping second, assigning `fcat_med[label_group] =
pcts[1]` for every group of both groupings; a first-word group whose name
equals a category label therefore overwrites the category median. -/
def fcat_med (brLabelOf : String → String) (data : List (String × ℚ × ℚ)) :
    List (String × ℚ) :=
  (summaryFor firstWord data).foldl (fun m p => updateAssoc m p.1 p.2)
    ((summaryFor brLabelOf data).foldl (fun m p => updateAssoc m p.1 p.2) [])

theorem lookup_updateAssoc {α : Type} (m : List (String × α)) (k : String) (v : α)
    (lab : String) :
    (updateAssoc m k v).lookup lab = if lab = k then some v else m.lookup lab := by
  induction m with
  | nil =>
    by_cases h : lab = k
    · have hb : (lab == k) = true := beq_iff_eq.2 h
      rw [if_pos h]
      simp only [updateAssoc, List.lookup_cons, hb, List.lookup_nil]
    · have hb : (lab == k) = false := beq_eq_false_iff_ne.2 h
      rw [if_neg h]
      simp only [updateAssoc, List.lookup_cons, hb, List.lookup_nil]
  | cons q qs ih =>
    obtain ⟨k', v'⟩ := q
    by_cases hk : k' = k
    · rw [show updateAssoc ((k', v') :: qs) k v = (k, v) :: qs from by
        simp [updateAssoc, hk]]
      by_cases h : lab = k
      · have hb : (lab == k) = true := beq_iff_eq.2 h
        rw [if_pos h]
        simp only [List.lookup_cons, hb]
      · have hb : (lab == k) = false := beq_eq_false_iff_ne.2 h
        have hb' : (lab == k') = false := beq_eq_false_iff_ne.2 (fun hc => h (hc.trans hk))
        rw [if_neg h]
        simp only [List.lookup_cons, hb, hb']
    · rw [show updateAssoc ((k', v') :: qs) k v = (k', v') :: updateAssoc qs k v from by
        simp [updateAssoc, hk]]
      by_cases h : lab = k'
      · have hb' : (lab == k') = true := beq_iff_eq.2 h
        have hlabk : ¬ lab = k := fun hc => hk (h.symm.trans hc)
        rw [if_neg hlabk]
        simp only [List.lookup_cons, hb']
      · have hb' : (lab == k') = false := beq_eq_false_iff_ne.2 h
        simp only [List.lookup_cons, hb']
        exact ih

theorem lookup_addToGroup {α : Type} (gs : List (String × List α)) (k : String) (v : α)
    (lab : String) :
    (addToGroup gs k v).lookup lab =
      if lab = k then some (((gs.lookup lab).getD []) ++ [v]) else gs.lookup lab := by
  induction gs with
  | nil =>
    by_cases h : lab = k
    · have hb : (lab == k) = true := beq_iff_eq.2 h
      rw [if_pos h]
      simp only [addToGroup, List.lookup_cons, hb, List.lookup_nil, Option.getD_none,
        List.nil_append]
    · have hb : (lab == k) = false := beq_eq_false_iff_ne.2 h
      rw [if_neg h]
      simp only [addToGroup, List.lookup_cons, hb, List.lookup_nil]
  | cons q qs ih =>
    obtain ⟨k', vs⟩ := q
    by_cases hk : k' = k
    · rw [show addToGroup ((k', vs) :: qs) k v = (k', vs ++ [v]) :: qs from by
        simp [addToGroup, hk]]
      by_cases h : lab = k'
      · have hb' : (lab == k') = true := beq_iff_eq.2 h
        rw [if_pos (h.trans hk)]
        simp only [List.lookup_cons, hb', Option.getD_some]
      · have hb' : (lab == k') = false := beq_eq_false_iff_ne.2 h
        have hlabk : ¬ lab = k := fun hc => h (hc.trans hk.symm)
        rw [if_neg hlabk]
        simp only [List.lookup_cons, hb']
    · rw [show addToGroup ((k', vs) :: qs) k v = (k', vs) :: addToGroup qs k v from by
        simp [addToGroup, hk]]
      by_cases h : lab = k'
      · have hb' : (lab == k') = true := beq_iff_eq.2 h
        have hlabk : ¬ lab = k := fun hc => hk (h.symm.trans hc)
        rw [if_neg hlabk]
        simp only [List.lookup_cons, hb']
      · have hb' : (lab == k') = false := beq_eq_false_iff_ne.2 h
        simp only [List.lookup_cons, hb']
        exact ih

theorem lookup_foldl_addToGroup (g : String → String) (data : List (String × ℚ × ℚ))
    (gs : List (String × List (ℚ × ℚ))) (lab : String) :
    (data.foldl (fun gs d => addToGroup gs (g d.1) (d.2.2, d.2.1)) gs).lookup lab =
      if data.filter (fun d => g d.1 == lab) = [] then gs.lookup lab
      else some (((gs.lookup lab).getD []) ++
        (data.filter (fun d => g d.1 == lab)).map (fun d => (d.2.2, d.2.1))) := by
  induction data generalizing gs with
  | nil => simp
  | cons d ds ih =>
    simp only [List.foldl_cons, List.filter_cons]
    by_cases hgd : g d.1 = lab
    · have hbeq : (g d.1 == lab) = true := by simp [hgd]
      rw [hbeq]
      simp only [ite_true, reduceIte]
      rw [ih]
      have hlk : (addToGroup gs (g d.1) (d.2.2, d.2.1)).lookup lab =
          some (((gs.lookup lab).getD []) ++ [(d.2.2, d.2.1)]) := by
        rw [lookup_addToGroup, if_pos hgd.symm]
      by_cases hds : ds.filter (fun d => g d.1 == lab) = []
      · rw [if_pos hds, hlk, if_neg (by simp), hds]
        simp
      · rw [if_neg hds, if_neg (by simp), hlk]
        simp [List.append_assoc]
    · have hbeq : (g d.1 == lab) = false := by simp [hgd]
      rw [hbeq]
      simp only [Bool.false_eq_true, ite_false, reduceIte]
      rw [ih]
      have hlk : (addToGroup gs (g d.1) (d.2.2, d.2.1)).lookup lab = gs.lookup lab := by
        rw [lookup_addToGroup, if_neg (fun hc => hgd hc.symm)]
      rw [hlk]

theorem mem_of_lookup_eq_some {α : Type} (gs : List (String × α)) (lab : String) (v : α)
    (h : gs.lookup lab = some v) : (lab, v) ∈ gs := by
  induction gs with
  | nil => simp at h
  | cons q qs ih =>
    obtain ⟨k', v'⟩ := q
    rw [List.lookup_cons] at h
    cases hbeq : (lab == k')
    · rw [hbeq] at h
      exact List.mem_cons_of_mem _ (ih h)
    · rw [hbeq] at h
      have hk : lab = k' := by simpa using hbeq
      have hv : v' = v := Option.some.inj h
      rw [hk, ← hv]
      exact List.mem_cons_self _ _

theorem keys_addToGroup {α : Type} (gs : List (String × List α)) (k : String) (v : α) :
    (addToGroup gs k v).map Prod.fst =
      if k ∈ gs.map Prod.fst then gs.map Prod.fst else gs.map Prod.fst ++ [k] := by
  induction gs with
  | nil => simp [addToGroup]
  | cons q qs ih =>
    obtain ⟨k', vs⟩ := q
    simp only [addToGroup]
    by_cases hk : k' = k
    · subst hk
      simp
    · rw [if_neg hk]
      simp only [List.map_cons, ih]
      by_cases hmem : k ∈ qs.map Prod.fst
      · rw [if_pos hmem, if_pos (by simp [hmem])]
      · rw [if_neg hmem, if_neg (by
          simp only [List.mem_cons]
          rintro (hc | hc)
          · exact hk hc.symm
          · exact hmem hc)]
        simp

theorem nodup_keys_addToGroup {α : Type} (gs : List (String × List α)) (k : String)
    (v : α) (h : (gs.map Prod.fst).Nodup) : ((addToGroup gs k v).map Prod.fst).Nodup := by
  rw [keys_addToGroup]
  by_cases hmem : k ∈ gs.map Prod.fst
  · rw [if_pos hmem]
    exact h
  · rw [if_neg hmem]
    rw [List.nodup_append]
    exact ⟨h, List.nodup_singleton k, by simpa using hmem⟩

theorem nodup_keys_foldl_addToGroup (g : String → String) (data : List (String × ℚ × ℚ))
    (gs : List (String × List (ℚ × ℚ))) (h : (gs.map Prod.fst).Nodup) :
    (((data.foldl (fun gs d => addToGroup gs (g d.1) (d.2.2, d.2.1)) gs)).map
      Prod.fst).Nodup := by
  induction data generalizing gs with
  | nil => exact h
  | cons d ds ih => exact ih _ (nodup_keys_addToGroup gs _ _ h)

theorem keys_foldl_addToGroup_mem (g : String → String) (data : List (String × ℚ × ℚ))
    (gs : List (String × List (ℚ × ℚ))) (k : String)
    (hk : k ∈ ((data.foldl (fun gs d => addToGroup gs (g d.1) (d.2.2, d.2.1)) gs)).map
      Prod.fst) :
    k ∈ gs.map Prod.fst ∨ ∃ d ∈ data, g d.1 = k := by
  induction data generalizing gs with
  | nil => exact Or.inl hk
  | cons d ds ih =>
    rcases ih _ hk with h1 | h1
    · rw [keys_addToGroup] at h1
      by_cases hmem : g d.1 ∈ gs.map Prod.fst
      · rw [if_pos hmem] at h1
        exact Or.inl h1
      · rw [if_neg hmem] at h1
        rcases List.mem_append.1 h1 with h2 | h2
        · exact Or.inl h2
        · simp only [List.mem_singleton] at h2
          exact Or.inr ⟨d, List.mem_cons_self _ _, h2.symm⟩
    · obtain ⟨d', hd', hgd'⟩ := h1
      exact Or.inr ⟨d', List.mem_cons_of_mem _ hd', hgd'⟩

theorem lookup_foldl_updateAssoc_not_mem {α : Type} (l : List (String × α))
    (m : List (String × α)) (lab : String) (h : ∀ p ∈ l, p.1 ≠ lab) :
    (l.foldl (fun m p => updateAssoc m p.1 p.2) m).lookup lab = m.lookup lab := by
  induction l generalizing m with
  | nil => rfl
  | cons p ps ih =>
    simp only [List.foldl_cons]
    rw [ih _ (fun q hq => h q (List.mem_cons_of_mem _ hq)), lookup_updateAssoc,
      if_neg (fun hc => h p (List.mem_cons_self _ _) hc.symm)]

theorem lookup_foldl_updateAssoc_mem {α : Type} (l : List (String × α))
    (m : List (String × α)) (lab : String) (v : α)
    (hnd : (l.map Prod.fst).Nodup) (hmem : (lab, v) ∈ l) :
    (l.foldl (fun m p => updateAssoc m p.1 p.2) m).lookup lab = some v := by
  induction l generalizing m with
  | nil => cases hmem
  | cons p ps ih =>
    simp only [List.map_cons, List.nodup_cons] at hnd
    rcases List.mem_cons.1 hmem with h1 | h1
    · have hp1 : p.1 = lab := by rw [← h1]
      simp only [List.foldl_cons]
      rw [lookup_foldl_updateAssoc_not_mem ps _ lab (fun q hq hc => by
        apply hnd.1
        rw [hp1, ← hc]
        exact List.mem_map.2 ⟨q, hq, rfl⟩)]
      rw [lookup_updateAssoc, if_pos hp1.symm]
      rw [← h1]
    · exact ih _ hnd.2 h1

/-- Category labels for the C3 counterexample: the feature `sound_loud`
has category `smell`, the feature `x_y` has category `sound`. -/
def exBrLabel : String → String := fun n => if n = "sound_loud" then "smell" else "sound"

/-- Defined-score feature rows for the C3 counterexample. -/
def exData : List (String × ℚ × ℚ) := [("sound_loud", 1, 2), ("x_y", 1, 9)]

/-- C3 counterexample: the features with category label `sound` have score
list `[9]`, whose median is `9`, yet `fcat_med` maps `sound` to `2`: the
first-word group `sound` of the feature `sound_loud` overwrites the
category median in the second pass of the report loop. -/
theorem fcat_med_overwrite_counterexample :
    (exData.filter (fun d => exBrLabel d.1 == "sound")).map (fun d => d.2.2) = [9] ∧
    percentile50 [9] = 9 ∧
    (fcat_med exBrLabel exData).lookup "sound" = some 2 ∧ (2 : ℚ) ≠ 9 := by
  refine ⟨by decide, by decide, by decide, by norm_num⟩

/-- C3 (amended): for a category label that is not also the first token of
any scored feature's name, `fcat_med` maps it to the median of the scores
of the features carrying that category label; labels that collide with a
first-word group are overwritten by that group's median. -/
theorem fcat_med_category_median (brLabelOf : String → String)
    (data : List (String × ℚ × ℚ)) (lab : String)
    (hfw : ∀ d ∈ data, firstWord d.1 ≠ lab)
    (hcat : ∃ d ∈ data, brLabelOf d.1 = lab) :
    (fcat_med brLabelOf data).lookup lab =
      some (percentile50
        ((data.filter (fun d => brLabelOf d.1 == lab)).map (fun d => d.2.2))) := by
  obtain ⟨d0, hd0, hlab0⟩ := hcat
  have hfilter : data.filter (fun d => brLabelOf d.1 == lab) ≠ [] := by
    apply List.ne_nil_of_mem (a := d0)
    rw [List.mem_filter]
    exact ⟨hd0, by simp [hlab0]⟩
  have hlook : (buildGroups brLabelOf data).lookup lab =
      some ((data.filter (fun d => brLabelOf d.1 == lab)).map (fun d => (d.2.2, d.2.1))) := by
    rw [buildGroups, lookup_foldl_addToGroup, if_neg hfilter]
    simp
  have hmem : (lab, percentile50
      ((data.filter (fun d => brLabelOf d.1 == lab)).map (fun d => d.2.2))) ∈
      summaryFor brLabelOf data := by
    rw [summaryFor, (pySorted_perm _ _).mem_iff]
    refine List.mem_map.2 ⟨(lab,
      (data.filter (fun d => brLabelOf d.1 == lab)).map (fun d => (d.2.2, d.2.1))),
      mem_of_lookup_eq_some _ _ _ hlook, ?_⟩
    rw [show ((data.filter (fun d => brLabelOf d.1 == lab)).map
      (fun d => (d.2.2, d.2.1))).map (·.1) =
        (data.filter (fun d => brLabelOf d.1 == lab)).map (fun d => d.2.2) from by
      rw [List.map_map]
      exact List.map_congr_left (fun a _ => rfl)]
  have hnodup : ((summaryFor brLabelOf data).map Prod.fst).Nodup := by
    have hperm : ((summaryFor brLabelOf data).map Prod.fst).Perm
        (((buildGroups brLabelOf data).map
          (fun grp => (grp.1, percentile50 (grp.2.map (·.1))))).map Prod.fst) :=
      (pySorted_perm _ _).map Prod.fst
    rw [hperm.nodup_iff]
    have : ((buildGroups brLabelOf data).map
        (fun grp => (grp.1, percentile50 (grp.2.map (·.1))))).map Prod.fst =
        (buildGroups brLabelOf data).map Prod.fst := by
      rw [List.map_map]
      exact List.map_congr_left (fun a _ => rfl)
    rw [this]
    exact nodup_keys_foldl_addToGroup brLabelOf data [] (by simp)
  have hinner : (((summaryFor brLabelOf data).foldl
      (fun m p => updateAssoc m p.1 p.2) []).lookup lab) =
      some (percentile50
        ((data.filter (fun d => brLabelOf d.1 == lab)).map (fun d => d.2.2))) :=
    lookup_foldl_updateAssoc_mem _ _ _ _ hnodup hmem
  rw [fcat_med, lookup_foldl_updateAssoc_not_mem, hinner]
  intro p hp
  have hp1 : p.1 ∈ ((summaryFor firstWord data).map Prod.fst) :=
    List.mem_map.2 ⟨p, hp, rfl⟩
  have hp2 : p.1 ∈ (((buildGroups firstWord data).map
      (fun grp => (grp.1, percentile50 (grp.2.map (·.1))))).map Prod.fst) :=
    ((pySorted_perm _ _).map Prod.fst).mem_iff.1 hp1
  have hp3 : p.1 ∈ (buildGroups firstWord data).map Prod.fst := by
    have : ((buildGroups firstWord data).map
        (fun grp => (grp.1, percentile50 (grp.2.map (·.1))))).map Prod.fst =
        (buildGroups firstWord data).map Prod.fst := by
      rw [List.map_map]
      exact List.map_congr_left (fun a _ => rfl)
    rw [← this]
    exact hp2
  rcases keys_foldl_addToGroup_mem firstWord data [] p.1 hp3 with h1 | h1
  · simp at h1
  · obtain ⟨d, hd, hgd⟩ := h1
    rw [← hgd]
    exact hfw d hd

/-- C3 witness for the amended claim: a single feature whose first token
differs from its category label. -/
theorem fcat_med_category_median_witness :
    ((∀ d ∈ ([("a_b", 1, 2)] : List (String × ℚ × ℚ)), firstWord d.1 ≠ "cat") ∧
     (∃ d ∈ ([("a_b", 1, 2)] : List (String × ℚ × ℚ)), (fun _ => "cat") d.1 = "cat")) ∧
    (fcat_med (fun _ => "cat") [("a_b", 1, 2)]).lookup "cat" =
      some (percentile50
        ((([("a_b", 1, 2)] : List (String × ℚ × ℚ)).filter
          (fun d => (fun _ => "cat") d.1 == "cat")).map (fun d => d.2.2))) :=
  ⟨⟨by decide, by decide⟩,
   fcat_med_category_median (fun _ => "cat") [("a_b", 1, 2)] "cat" (by decide) (by decide)⟩

/-- The composite row `do_cluster` builds for one concept:
`X = np.append(np.array([mean_metric]).T, X, axis=1)` with
`mean_metric = concept_vals.get(label, np.nan)` — the first column is the
concept's mean feature-fit value when defined and `np.nan` (modelled as
`none`) otherwise, followed by the raw embedding row. -/
def clusterRow (concept_vals : List (String × ℚ)) (label : String) (emb : List ℚ) :
    Option ℚ × List ℚ :=
  (concept_vals.lookup label, emb)

/-- Model of `metric_fn(x, y)` inside `do_cluster`: `x[0]`, `y[0]` are the
feature-fit weights (`none` = `np.nan`), `x[1:]`, `y[1:]` the embedding
parts; `scipy.spatial.distance.cosine` is external and passed as
`cosDist`. -/
def metric_fn (cosDist : List ℚ → List ℚ → ℚ) (x y : Option ℚ × List ℚ) : ℚ :=
  let emb_dist := cosDist x.2 y.2
  match x.1, y.1 with
  | some x_weight, some y_weight => emb_dist + 100 * ((x_weight - y_weight) ^ 2)
  | _, _ => emb_dist

/-- C9: the pairwise distance between two composite concept rows is the
cosine distance of their embedding parts plus 100 times the squared
difference of their feature-fit values, and the cosine distance alone when
either feature-fit value is undefined (`np.nan`). -/
theorem metric_fn_composite (cosDist : List ℚ → List ℚ → ℚ)
    (concept_vals : List (String × ℚ)) (l1 l2 : String) (e1 e2 : List ℚ) :
    (∀ w1 w2, concept_vals.lookup l1 = some w1 → concept_vals.lookup l2 = some w2 →
      metric_fn cosDist (clusterRow concept_vals l1 e1) (clusterRow concept_vals l2 e2) =
        cosDist e1 e2 + 100 * ((w1 - w2) ^ 2)) ∧
    ((concept_vals.lookup l1 = none ∨ concept_vals.lookup l2 = none) →
      metric_fn cosDist (clusterRow concept_vals l1 e1) (clusterRow concept_vals l2 e2) =
        cosDist e1 e2) := by
  constructor
  · intro w1 w2 h1 h2
    simp [metric_fn, clusterRow, h1, h2]
  · rintro (h | h)
    · simp [metric_fn, clusterRow, h]
    · cases hx : concept_vals.lookup l1 <;> simp [metric_fn, clusterRow, hx, h]

/-- C9 witness: concrete rows with both weights defined, and with one
weight undefined. -/
theorem metric_fn_composite_witness :
    metric_fn (fun _ _ => 7) (clusterRow [("a", 3)] "a" [1]) (clusterRow [("a", 3)] "a" [2]) =
      7 + 100 * (((3 : ℚ) - 3) ^ 2) ∧
    metric_fn (fun _ _ => 7) (clusterRow [("a", 3)] "a" [1]) (clusterRow [("a", 3)] "b" [2]) =
      7 :=
  ⟨(metric_fn_composite (fun _ _ => 7) [("a", 3)] "a" "a" [1] [2]).1 3 3 (by decide) (by decide),
   (metric_fn_composite (fun _ _ => 7) [("a", 3)] "a" "b" [1] [2]).2 (Or.inr (by decide))⟩

/-- One iteration of the row loop of `get_values`: a row is its
`(row[c_string], row[value])` pair; `float()` is the external parser
`parseFloat` (`none` = conversion error, fatal). A value equal to `'n/a'`
is replaced by `0` before conversion, and the row assigns
`concept_values[row[c_string]]`. -/
def gvStep (parseFloat : String → Option ℚ) (acc : List (String × ℚ))
    (row : String × String) : Except String (List (String × ℚ)) :=
  if row.2 = "n/a" then .ok (updateAssoc acc row.1 0)
  else
    match parseFloat row.2 with
    | some q => .ok (updateAssoc acc row.1 q)
    | none => .error "could not convert string to float"

/-- Model of `get_values(input_file, c_string, value)`: fold the row loop
over the file's rows starting from an empty dict. -/
def get_values (parseFloat : String → Option ℚ) (rows : List (String × String)) :
    Except String (List (String × ℚ)) :=
  rows.foldlM (gvStep parseFloat) []

/-- C10: when every non-`'n/a'` value parses, `get_values` succeeds; a row
valued `'n/a'` is recorded as the number 0 instead of raising, and when
several rows share a concept key the mapping holds the value of the last
such row (later rows overwrite earlier ones). -/
theorem get_values_na_last_wins (parseFloat : String → Option ℚ)
    (rows : List (String × String))
    (h : ∀ r ∈ rows, r.2 = "n/a" ∨ (parseFloat r.2).isSome = true) :
    ∃ m, get_values parseFloat rows = .ok m ∧
      ∀ c, m.lookup c =
        ((rows.filter (fun r => r.1 == c)).getLast?).map
          (fun r => if r.2 = "n/a" then 0 else (parseFloat r.2).getD 0) := by
  induction rows using List.reverseRecOn with
  | nil => exact ⟨[], rfl, fun c => rfl⟩
  | append_singleton rs r ih =>
    obtain ⟨m0, hm0, hlk⟩ := ih (fun q hq => h q (List.mem_append.2 (Or.inl hq)))
    have hr := h r (List.mem_append.2 (Or.inr (List.mem_singleton_self r)))
    have hgv : ∀ val : ℚ, gvStep parseFloat m0 r = .ok (updateAssoc m0 r.1 val) →
        get_values parseFloat (rs ++ [r]) = .ok (updateAssoc m0 r.1 val) := by
      intro val hval
      unfold get_values
      rw [List.foldlM_append]
      unfold get_values at hm0
      rw [hm0]
      simp only [List.foldlM_cons, List.foldlM_nil]
      show gvStep parseFloat m0 r >>= pure = Except.ok (updateAssoc m0 r.1 val)
      rw [hval]
      rfl
    have hmain : ∀ val : ℚ,
        val = (if r.2 = "n/a" then 0 else (parseFloat r.2).getD 0) →
        ∀ c, (updateAssoc m0 r.1 val).lookup c =
          (((rs ++ [r]).filter (fun q => q.1 == c)).getLast?).map
            (fun q => if q.2 = "n/a" then 0 else (parseFloat q.2).getD 0) := by
      intro val hval c
      rw [lookup_updateAssoc, List.filter_append]
      by_cases hc : c = r.1
      · have hb : (r.1 == c) = true := beq_iff_eq.2 hc.symm
        rw [if_pos hc]
        have hfil : List.filter (fun q => q.1 == c) [r] = [r] := by
          simp [List.filter_cons, hb]
        rw [hfil, List.getLast?_concat]
        simp [hval]
      · have hb : (r.1 == c) = false := beq_eq_false_iff_ne.2 (fun hx => hc hx.symm)
        rw [if_neg hc]
        have hfil : List.filter (fun q => q.1 == c) [r] = [] := by
          simp [List.filter_cons, hb]
        rw [hfil, List.append_nil]
        exact hlk c
    by_cases hna : r.2 = "n/a"
    · exact ⟨updateAssoc m0 r.1 0, hgv 0 (by simp [gvStep, hna]),
        hmain 0 (by rw [if_pos hna])⟩
    · rcases hr with hna2 | hps
      · exact absurd hna2 hna
      · obtain ⟨q, hq⟩ := Option.isSome_iff_exists.1 hps
        refine ⟨updateAssoc m0 r.1 q, hgv q (by simp [gvStep, hna, hq]),
          hmain q ?_⟩
        rw [if_neg hna, hq]
        rfl

/-- Parser for the C10 witness. -/
def gvParse : String → Option ℚ := fun s => if s = "15" then some 15 else none

/-- C10 witness: a key written twice, first as `'n/a'` then as a number. -/
theorem get_values_na_last_wins_witness :
    (∀ r ∈ ([("c", "n/a"), ("c", "15")] : List (String × String)),
      r.2 = "n/a" ∨ (gvParse r.2).isSome = true) ∧
    (∃ m, get_values gvParse [("c", "n/a"), ("c", "15")] = .ok m ∧
      ∀ c, m.lookup c =
        ((([("c", "n/a"), ("c", "15")] : List (String × String)).filter
            (fun r => r.1 == c)).getLast?).map
          (fun r => if r.2 = "n/a" then 0 else (gvParse r.2).getD 0)) :=
  ⟨by decide, get_values_na_last_wins gvParse [("c", "n/a"), ("c", "15")] (by decide)⟩

/-- Indices with `Y[:, f_idx]` nonzero (`Y[:, f_idx].nonzero()[0]`): the
concepts that have the feature. -/
def c_idxs (Y : List (List ℚ)) (f_idx : Nat) : List Nat :=
  (List.range Y.length).filter (fun i => !(((Y.getD i []).getD f_idx 0) == 0))

/-- Indices with `(1 - Y[:, f_idx])` nonzero: the concepts that do not have
the feature (for a 0/1 indicator column). -/
def c_not_idxs (Y : List (List ℚ)) (f_idx : Nat) : List Nat :=
  (List.range Y.length).filter (fun i => !((1 - ((Y.getD i []).getD f_idx 0)) == 0))

/-- Model of `loocv_feature(C, X, Y, f_idx, clf)`. The sklearn classifier
is abstract: `p Xtrain Ytrain x` is the probability that
`clone(clf).fit(Xtrain, Ytrain)` predicts for column `f_idx` at the point
`x`; `ln` abstracts `np.log`; `f_concepts` is the outcome of the
`np.random.choice` draw of positive concepts. The `test` matrix is built
exactly as in the source and — exactly as in the source — never used:
`pred_prob` is `predict_proba(X)[:, f_idx]` on the full `X`, so the score
compares row 0 of `X` against rows `1:` of `X`, whichever concept was held
out. -/
def loocv_feature (ln : ℚ → ℚ) (p : List (List ℚ) → List (List ℚ) → List ℚ → ℚ)
    (C : ℚ) (X Y : List (List ℚ)) (f_idx : Nat) (f_concepts : List Nat) : ℚ × List ℚ :=
  let scores := f_concepts.foldl (fun scores c_idx =>
    let X_loo := X.take c_idx ++ X.drop (c_idx + 1)
    let Y_loo := Y.take c_idx ++ Y.drop (c_idx + 1)
    let test := (X.drop c_idx).take 1 ++ (c_not_idxs Y f_idx).map (fun i => X.getD i [])
    let pred_prob := X.map (p X_loo Y_loo)
    let score := ln (pred_prob.getD 0 0) - mean ((pred_prob.drop 1).map ln)
    scores ++ [score]) []
  (C, scores)

/-- Modelled from the spec: the LOOCV score as C1 words it — refit on all
concepts except the held-out one and score by the log predicted probability
of the held-out positive minus the mean log predicted probability over a
sample of held-out negative concepts (`negSample`). This is what the dead
`test` matrix in the source was built for. -/
def loocv_feature_spec (ln : ℚ → ℚ) (p : List (List ℚ) → List (List ℚ) → List ℚ → ℚ)
    (C : ℚ) (X Y : List (List ℚ)) (f_idx : Nat) (f_concepts : List Nat)
    (negSample : List Nat) : ℚ × List ℚ :=
  let _ := f_idx
  let scores := f_concepts.foldl (fun scores c_idx =>
    let X_loo := X.take c_idx ++ X.drop (c_idx + 1)
    let Y_loo := Y.take c_idx ++ Y.drop (c_idx + 1)
    let score := ln (p X_loo Y_loo (X.getD c_idx [])) -
      mean (negSample.map (fun i => ln (p X_loo Y_loo (X.getD i []))))
    scores ++ [score]) []
  (C, scores)

/-- C1: the code's score is not the claimed log-probability margin of the
held-out concept. With three one-dimensional embeddings, the positive
concept at row 1 held out, `ln = id` and a fitted model predicting the
point's own coordinate, the code scores row 0 against rows 1 and 2 of the
full matrix (score -4), while the claimed margin — held-out positive row 1
against the negative rows 0 and 2 — is -1. -/
theorem loocv_feature_divergence :
    c_idxs [[0], [1], [0]] 0 = [1] ∧
    c_not_idxs [[0], [1], [0]] 0 = [0, 2] ∧
    loocv_feature id (fun _ _ x => x.getD 0 0) 1 [[2], [4], [8]] [[0], [1], [0]] 0 [1] =
      (1, [-4]) ∧
    loocv_feature_spec id (fun _ _ x => x.getD 0 0) 1 [[2], [4], [8]] [[0], [1], [0]] 0 [1]
      [0, 2] = (1, [-1]) := by
  refine ⟨by decide, ?_, ?_, ?_⟩
  · norm_num [c_not_idxs, List.range_succ, List.filter_append, List.filter_cons, List.getD]
  · norm_num [loocv_feature, mean, List.getD]
  · norm_num [loocv_feature_spec, mean, List.getD]
